import Mathlib

/-!
# Reference counts per identifier (`longeron/id_management/refcount.hpp`)

A shallow embedding of `lgrn::RefCount` and `lgrn::IdRefCount`.

* A table is the list of its slots. `COUNT_T` is the default `unsigned short`;
  a slot is a natural number and every write is reduced modulo `2 ^ 16`.
* A member function that mutates the table returns a pair: what the call
  produced (its return value, or the fault that stopped it) and the table as
  the call left it.
* A call stops with `Fault.assertion` when an `LGRN_ASSERTM` check fails and
  with `Fault.undefined` when the C++ has no defined behaviour (an index or an
  iterator past the end of the vector). After `Fault.assertion` the table is
  the one at the halt; after `Fault.undefined` it carries no meaning.
* An identifier is its integer value; `w` is the width in bits of
  `underlying_int_type_t<ID_T>`.
-/

namespace lgrn

/-- Reasons for which a call does not return. -/
inductive Fault where
  | assertion
  | undefined
  deriving DecidableEq, Repr

deriving instance DecidableEq for Except

/-- Number of values of `COUNT_T = unsigned short`, that is `2 ^ 16`. -/
abbrev COUNT_T_card : Nat := 65536

/-- The class `RefCount<unsigned short>`: a `std::vector` of counters. -/
abbrev RefCount := List Nat

/-- The class `IdRefCount<ID_T, unsigned short>`: it derives from `RefCount` and adds no field. -/
abbrev IdRefCount := RefCount

/-- Modelled from the spec: the assertion macros `LGRN_ASSERTM` and `LGRN_ASSERTMV`
(defined in the assertion header of the library, which is not embedded here).
A check that does not hold halts the execution at once (section 7,
fail-fast); the message and the printed values play no role. -/
def LGRN_ASSERTM (cond : Bool) : Except Fault Unit :=
  if cond then .ok () else .error .assertion

/-- The library call `std::vector::resize(n, value)`: keep the first `n`
elements, or append copies of `value` up to length `n`. -/
def vector_resize (v : List Nat) (n : Nat) (value : Nat) : List Nat :=
  v.take n ++ List.replicate (n - v.length) value

/-- The loop of `only_zeros_remaining` from an iterator to `end()`: `false`
at the first element with `0 != *it`, `true` when `end()` is reached. -/
def zeros_loop : List Nat → Bool
  | [] => true
  | c :: rest => if 0 != c then false else zeros_loop rest

/-- Member `RefCount::only_zeros_remaining(start) const`. The iterator
`std::next(begin(), start)` exists only for `start <= size()`. -/
def RefCount.only_zeros_remaining (self : RefCount) (start : Nat) : Except Fault Bool :=
  if self.length < start then .error .undefined
  else .ok (zeros_loop (self.drop start))

/-- Destructor `RefCount::~RefCount()`: the check made when a table is destroyed. -/
def RefCount.destructor (self : RefCount) : Except Fault Unit := do
  let z ← RefCount.only_zeros_remaining self 0
  LGRN_ASSERTM z

/-- Move assignment `RefCount::operator=(RefCount&&)`: the check, then the vector move
assignment, after which the destination holds the elements of `move`. -/
def RefCount.move_assign (self move : RefCount) : Except Fault Unit × RefCount :=
  match (do let z ← RefCount.only_zeros_remaining self 0; LGRN_ASSERTM z) with
  | .error f => (.error f, self)
  | .ok () => (.ok (), move)

/-- Member `RefCount::resize(newSize)`. The `&&` of the asserted condition evaluates
`only_zeros_remaining(newSize)` only when `newSize < size()`. -/
def RefCount.resize (self : RefCount) (newSize : Nat) : Except Fault Unit × RefCount :=
  let check : Except Fault Unit := do
    let discards ←
      if newSize < self.length then do
        let z ← RefCount.only_zeros_remaining self newSize
        pure (!z)
      else pure false
    LGRN_ASSERTM (!discards)
  match check with
  | .error f => (.error f, self)
  | .ok () => (.ok (), vector_resize self newSize 0)

/-- Constructor `RefCount(std::size_t capacity)`: `capacity` slots, all zero. -/
def RefCount.mk (capacity : Nat) : RefCount := List.replicate capacity 0

/-- Constructor `RefCount()`: the empty table. -/
def RefCount.empty : RefCount := []

/-- Modelled from the spec: `id_null<ID_T>()`, the reserved null sentinel of
the identifier type (declared in another header of the library, which is not
embedded here). The identifier converts to an unsigned integer of `w` bits
and the sentinel is one reserved value of it: the largest one, as is the
convention of the library. -/
def id_null (w : Nat) : Nat := 2 ^ w - 1

/-- Modelled from the spec: the owning handle `IdStorage<ID_T, IdRefCount>`
(declared in `storage.hpp`, which is not embedded here): it holds a single
identifier value, a real identifier or the null sentinel (section 3). -/
structure Storage_t where
  m_id : Nat
  deriving DecidableEq, Repr

/-- Modelled from the spec: `IdStorage::has_value()`, true iff the handle is not null (section 4.3). -/
def Storage_t.has_value (w : Nat) (s : Storage_t) : Bool := s.m_id != id_null w

/-- Modelled from the spec: a default-constructed handle is in the null state (section 4.3). -/
def Storage_t.null (w : Nat) : Storage_t := ⟨id_null w⟩

/-- Modelled from the spec: the transfer of a handle (section 4.3). The
destination receives the identifier of the source and the source is reset to
null; the result is (source after, destination). No table takes part. -/
def Storage_t.move (w : Nat) (src : Storage_t) : Storage_t × Storage_t :=
  (⟨id_null w⟩, ⟨src.m_id⟩)

/-- Width of the type in which `idInt + 1` is evaluated: an operand narrower
than `int` is promoted to `int` (32 bits), a wider one keeps its type. -/
def sum_bits (w : Nat) : Nat := max w 32

/-- Member `IdRefCount::ref_add(id)`. Returns the handle `Storage_t(id)`. -/
def IdRefCount.ref_add (w : Nat) (self : IdRefCount) (id : Nat) :
    Except Fault Storage_t × IdRefCount :=
  let idInt := id
  let grown : Except Fault Unit × IdRefCount :=
    if self.length ≤ idInt then RefCount.resize self ((idInt + 1) % 2 ^ sum_bits w)
    else (.ok (), self)
  match grown with
  | (.error f, t) => (.error f, t)
  | (.ok (), t) =>
    if h : idInt < t.length then
      (.ok ⟨id⟩, t.set idInt ((t[idInt] + 1) % COUNT_T_card))
    else (.error .undefined, t)

/-- Member `IdRefCount::ref_release(rStorage)`. The handle is passed by reference:
the result holds the table and the handle as the call left them. -/
def IdRefCount.ref_release (w : Nat) (self : IdRefCount) (rStorage : Storage_t) :
    Except Fault Unit × IdRefCount × Storage_t :=
  if Storage_t.has_value w rStorage then
    let idInt := rStorage.m_id
    if h : idInt < self.length then
      (.ok (), self.set idInt ((self[idInt] + COUNT_T_card - 1) % COUNT_T_card), ⟨id_null w⟩)
    else (.error .undefined, self, rStorage)
  else (.ok (), self, rStorage)

/-! ## A caller issuing a sequence of calls -/

/-- A caller of one table: the table and the handle variables the caller
holds, in the order in which `ref_add` returned them. -/
structure Client where
  table : IdRefCount
  handles : List Storage_t
  deriving DecidableEq, Repr

/-- One call of the caller: `add id` is `ref_add(id)`, whose handle goes to a
fresh variable; `release k` is `ref_release` on the handle variable number `k`. -/
inductive Call where
  | add (id : Nat)
  | release (k : Nat)
  deriving DecidableEq, Repr

/-- Slot `i` of a table as an observer counts it: a table that has not grown
up to `i` holds no reference to `i`. -/
def slot (t : IdRefCount) (i : Nat) : Nat := t.getD i 0

/-- The caller makes one call. A variable that was never assigned is a
default-constructed handle. -/
def Client.step (w : Nat) (s : Client) : Call → Except Fault Client
  | .add id =>
    match IdRefCount.ref_add w s.table id with
    | (.ok h, t) => .ok ⟨t, s.handles ++ [h]⟩
    | (.error f, _) => .error f
  | .release k =>
    match IdRefCount.ref_release w s.table (s.handles.getD k (Storage_t.null w)) with
    | (.ok (), t, h) => .ok ⟨t, s.handles.set k h⟩
    | (.error f, _) => .error f

/-- The caller makes the calls of a list in order and stops at the first fault. -/
def Client.run (w : Nat) (s : Client) : List Call → Except Fault Client
  | [] => .ok s
  | c :: cs =>
    match Client.step w s c with
    | .ok s1 => Client.run w s1 cs
    | .error f => .error f

/-- Whether a call is a `ref_add`. -/
def Call.is_add : Call → Bool
  | .add _ => true
  | .release _ => false

/-- Number of `ref_add` calls in a list of calls. -/
def num_adds (cs : List Call) : Nat := cs.countP Call.is_add

/-- Number of `ref_release` calls in a list of calls. -/
def num_releases (cs : List Call) : Nat := cs.countP (fun c => !c.is_add)

/-- The sequences of calls on one identifier `id` that the conservation
property speaks of, given that `issued` handles were returned so far and that
the variables listed in `released` were released: every `ref_add` is on `id`
and leaves fewer than `2 ^ 16` handles outstanding, every `ref_release` is on
a variable that holds a handle returned earlier and not released yet. -/
def legal_calls (id : Nat) : Nat → List Nat → List Call → Bool
  | _, _, [] => true
  | issued, released, .add j :: cs =>
    (j == id) && decide (issued + 1 - released.length < COUNT_T_card)
      && legal_calls id (issued + 1) released cs
  | issued, released, .release k :: cs =>
    decide (k < issued) && !(released.contains k)
      && legal_calls id issued (k :: released) cs

/-- What a caller's state looks like after `n` handles on `id` were issued and
the variables listed in `rel` were released. -/
structure Tracks (w id n : Nat) (rel : List Nat) (s : Client) : Prop where
  len : s.handles.length = n
  live : ∀ k, k < n → k ∉ rel → s.handles.getD k (Storage_t.null w) = ⟨id⟩
  nodup : rel.Nodup
  bound : ∀ k ∈ rel, k < n
  count : slot s.table id + rel.length = n
  small : n - rel.length < COUNT_T_card
  inb : 0 < n → id < s.table.length

/-! ## Sequences of calls on several identifiers -/

/-- Number of live handles wrapping the identifier `i`: the handle variables
that have a value and hold `i`. -/
def live_count (w : Nat) (hs : List Storage_t) (i : Nat) : Nat :=
  hs.countP (fun h => h.has_value w && h.m_id == i)

/-- Whether a call respects the precondition of `ref_add` (section 4.2): the
identifier is a value of the `w`-bit identifier type and is not the null
sentinel. A `ref_release` has no precondition. -/
def Call.real (w : Nat) : Call → Bool
  | .add id => decide (id < 2 ^ w) && (id != id_null w)
  | .release _ => true

/-- The handle variables of the caller after one call, told from the calls
alone: `ref_add(id)` returns a handle wrapping `id` into a fresh variable,
`ref_release` leaves the variable it is given null. -/
def Call.handles (w : Nat) (hs : List Storage_t) : Call → List Storage_t
  | .add id => hs ++ [⟨id⟩]
  | .release k => hs.set k (Storage_t.null w)

/-- The handle variables of the caller after a list of calls. -/
def handles_after (w : Nat) (hs : List Storage_t) : List Call → List Storage_t
  | [] => hs
  | c :: cs => handles_after w (Call.handles w hs c) cs

/-- The sequences of calls in which every `ref_add` is on a real identifier
and the number of live handles on one identifier stays below `2 ^ 16`, for a
caller that holds the handle variables `hs`. -/
def proper_calls (w : Nat) : List Storage_t → List Call → Bool
  | _, [] => true
  | hs, .add id :: cs =>
    Call.real w (.add id) && decide (live_count w hs id + 1 < COUNT_T_card)
      && proper_calls w (Call.handles w hs (.add id)) cs
  | hs, .release k :: cs => proper_calls w (Call.handles w hs (.release k)) cs

/-- The sequences of calls in which every handle returned by `ref_add` is
released exactly once, later on: given that `issued` handles were returned so
far and that the variables listed in `released` were released, every
`ref_release` is on a variable that holds a handle returned earlier and not
released yet, and at the end every variable is released. -/
def balanced_calls : Nat → List Nat → List Call → Bool
  | issued, released, [] => (List.range issued).all (fun k => released.contains k)
  | issued, released, .add _ :: cs => balanced_calls (issued + 1) released cs
  | issued, released, .release k :: cs =>
    decide (k < issued) && !(released.contains k)
      && balanced_calls issued (k :: released) cs

/-- The identifiers acquired by a list of calls, in order. -/
def acquired : List Call → List Nat
  | [] => []
  | .add id :: cs => id :: acquired cs
  | .release _ :: cs => acquired cs

/-- The table length that the growth policy states after a list of calls on
an empty table: `0` when no identifier was acquired, otherwise the largest
acquired identifier value plus one. -/
def policy_size (cs : List Call) : Nat :=
  if acquired cs = [] then 0 else (acquired cs).foldr max 0 + 1

/-- Every live handle of the caller wraps an identifier whose slot exists. -/
def Client.in_range (w : Nat) (s : Client) : Prop :=
  ∀ h ∈ s.handles, h.has_value w = true → h.m_id < s.table.length

/-- The live-handle invariant: every slot equals the number of live handles
wrapping its index, that number fits the counter, and every live handle wraps
an identifier whose slot exists. -/
structure Client.counted (w : Nat) (s : Client) : Prop where
  slots : ∀ i, slot s.table i = live_count w s.handles i
  fits : ∀ i, live_count w s.handles i < COUNT_T_card
  range : Client.in_range w s

/-! ## Closed forms of the member functions -/

theorem zeros_loop_iff (l : List Nat) : zeros_loop l = true ↔ ∀ c ∈ l, c = 0 := by
  induction l with
  | nil => simp [zeros_loop]
  | cons c rest ih =>
    by_cases hc : c = 0
    · simp [zeros_loop, hc, ih]
    · have : (0 != c) = true := by simp [bne_iff_ne]; omega
      simp [zeros_loop, hc, this]

theorem drop_all_zero_iff (t : List Nat) (s : Nat) :
    (∀ c ∈ t.drop s, c = 0) ↔ ∀ j, ∀ hj : j < t.length, s ≤ j → t[j] = 0 := by
  constructor
  · intro h j hj hsj
    apply h
    have hlen : j - s < (t.drop s).length := by simp; omega
    have : (t.drop s)[j - s] = t[j] := by
      rw [List.getElem_drop]; congr 1; omega
    rw [← this]
    exact List.getElem_mem hlen
  · intro h c hc
    obtain ⟨i, hi, rfl⟩ := List.mem_iff_getElem.mp hc
    rw [List.getElem_drop]
    apply h
    omega

theorem only_zeros_remaining_eq (t : RefCount) (s : Nat) (h : s ≤ t.length) :
    RefCount.only_zeros_remaining t s = .ok (zeros_loop (t.drop s)) := by
  simp [RefCount.only_zeros_remaining]; omega

theorem destructor_eq (t : RefCount) :
    RefCount.destructor t = if zeros_loop t then .ok () else .error .assertion := by
  simp [RefCount.destructor, RefCount.only_zeros_remaining, LGRN_ASSERTM, bind, Except.bind]

theorem resize_eq (t : RefCount) (n : Nat) :
    RefCount.resize t n =
      if n < t.length ∧ zeros_loop (t.drop n) = false then (.error .assertion, t)
      else (.ok (), vector_resize t n 0) := by
  unfold RefCount.resize
  by_cases hn : n < t.length
  · have hle : ¬ t.length < n := by omega
    cases hz : zeros_loop (t.drop n) <;>
      simp [hn, hle, hz, RefCount.only_zeros_remaining, LGRN_ASSERTM, bind, Except.bind, pure, Except.pure]
  · simp [hn, LGRN_ASSERTM, bind, Except.bind, pure, Except.pure]



theorem move_assign_eq (d src : RefCount) :
    RefCount.move_assign d src =
      if zeros_loop d then (.ok (), src) else (.error .assertion, d) := by
  unfold RefCount.move_assign
  cases hz : zeros_loop d <;>
    simp [hz, RefCount.only_zeros_remaining, LGRN_ASSERTM, bind, Except.bind]

theorem vector_resize_grow (t : List Nat) (n : Nat) (h : t.length ≤ n) :
    vector_resize t n 0 = t ++ List.replicate (n - t.length) 0 := by
  simp [vector_resize, List.take_of_length_le h]

/-- The table that `ref_add` leaves when the identifier's successor is representable. -/
theorem ref_add_eq (w : Nat) (t : IdRefCount) (id : Nat) (h : id + 1 < 2 ^ sum_bits w) :
    IdRefCount.ref_add w t id =
      (.ok ⟨id⟩, (t ++ List.replicate (id + 1 - t.length) 0).set id
        ((t.getD id 0 + 1) % COUNT_T_card)) := by
  unfold IdRefCount.ref_add
  by_cases hlen : t.length ≤ id
  · have hmod : (id + 1) % 2 ^ sum_bits w = id + 1 := Nat.mod_eq_of_lt h
    have hnot : ¬ (id + 1 < t.length) := by omega
    have hres : RefCount.resize t (id + 1) = (.ok (), t ++ List.replicate (id + 1 - t.length) 0) := by
      rw [resize_eq, vector_resize_grow t (id + 1) (by omega)]
      simp [hnot]
    simp only [hlen, if_true, hmod, hres]
    have hlt : id < (t ++ List.replicate (id + 1 - t.length) 0).length := by simp; omega
    have hget : (t ++ List.replicate (id + 1 - t.length) 0)[id] = 0 := by
      rw [List.getElem_append_right hlen]; simp
    have hd : t.getD id 0 = 0 := by
      simp [List.getD_eq_getElem?_getD, List.getElem?_eq_none hlen]
    rw [hd]
    simp only [List.length_append, List.length_replicate] at hlt
    simp [hlt, hget]
  · have hlt : id < t.length := by omega
    have hpad : id + 1 - t.length = 0 := by omega
    have hd : t.getD id 0 = t[id] := by
      simp [List.getD_eq_getElem?_getD, List.getElem?_eq_getElem hlt]
    simp [hlen, hlt, hpad, hd]

theorem sum_bits_le (w : Nat) : 2 ^ w ≤ 2 ^ sum_bits w :=
  Nat.pow_le_pow_right (by decide) (le_max_left w 32)

theorem succ_representable (w id : Nat) (hw : id < 2 ^ w) (hnn : id ≠ id_null w) :
    id + 1 < 2 ^ sum_bits w := by
  have := sum_bits_le w
  unfold id_null at hnn
  omega

theorem count_decrement (c : Nat) (h1 : 1 ≤ c) (h2 : c < COUNT_T_card) :
    (c + COUNT_T_card - 1) % COUNT_T_card = c - 1 := by
  simp only [COUNT_T_card] at *
  omega

theorem has_value_iff (w : Nat) (s : Storage_t) :
    Storage_t.has_value w s = true ↔ s.m_id ≠ id_null w := by
  simp [Storage_t.has_value]

theorem ref_release_null (w : Nat) (t : IdRefCount) (h : Storage_t)
    (hn : Storage_t.has_value w h = false) :
    IdRefCount.ref_release w t h = (.ok (), t, h) := by
  simp [IdRefCount.ref_release, hn]

theorem ref_release_eq (w : Nat) (t : IdRefCount) (h : Storage_t)
    (hv : Storage_t.has_value w h = true) (hi : h.m_id < t.length) :
    IdRefCount.ref_release w t h =
      (.ok (), t.set h.m_id ((t[h.m_id] + COUNT_T_card - 1) % COUNT_T_card), ⟨id_null w⟩) := by
  simp [IdRefCount.ref_release, hv, hi]

theorem ref_release_out (w : Nat) (t : IdRefCount) (h : Storage_t)
    (hv : Storage_t.has_value w h = true) (hi : t.length ≤ h.m_id) :
    IdRefCount.ref_release w t h = (.error .undefined, t, h) := by
  have : ¬ h.m_id < t.length := by omega
  simp [IdRefCount.ref_release, hv, this]

theorem ref_release_leaves_null (w : Nat) (t t1 : IdRefCount) (h h1 : Storage_t)
    (hr : IdRefCount.ref_release w t h = (.ok (), t1, h1)) :
    Storage_t.has_value w h1 = false := by
  cases hv : Storage_t.has_value w h
  · rw [ref_release_null w t h hv] at hr
    simp only [Prod.mk.injEq, true_and] at hr
    rw [← hr.2]; exact hv
  · by_cases hi : h.m_id < t.length
    · rw [ref_release_eq w t h hv hi] at hr
      simp only [Prod.mk.injEq, true_and] at hr
      rw [← hr.2]; simp [Storage_t.has_value]
    · rw [ref_release_out w t h hv (by omega)] at hr
      simp at hr

theorem slot_eq_getElem (t : IdRefCount) (i : Nat) (h : i < t.length) : slot t i = t[i] := by
  simp [slot, List.getD_eq_getElem?_getD, List.getElem?_eq_getElem h]

theorem slot_set_self (t : IdRefCount) (i v : Nat) (h : i < t.length) :
    slot (t.set i v) i = v := by
  simp [slot, List.getD_eq_getElem?_getD, List.getElem?_set_self h]

theorem slot_set_ne (t : IdRefCount) (i j v : Nat) (h : i ≠ j) :
    slot (t.set i v) j = slot t j := by
  simp [slot, List.getD_eq_getElem?_getD, List.getElem?_set_ne h]

theorem slot_pad (t : IdRefCount) (n i : Nat) :
    slot (t ++ List.replicate n 0) i = slot t i := by
  simp only [slot, List.getD_eq_getElem?_getD]
  by_cases h : i < t.length
  · rw [List.getElem?_append_left h]
  · rw [List.getElem?_append_right (by omega), List.getElem?_eq_none (Nat.le_of_not_lt h)]
    by_cases h2 : i - t.length < n
    · rw [List.getElem?_eq_getElem (by simpa using h2), List.getElem_replicate]; rfl
    · rw [List.getElem?_eq_none (by simpa using h2)]

/-- What `ref_add` does to the observed slots, when the identifier's successor is representable. -/
theorem ref_add_slot (w : Nat) (t : IdRefCount) (id : Nat) (h : id + 1 < 2 ^ sum_bits w) :
    ∃ t1, IdRefCount.ref_add w t id = (.ok ⟨id⟩, t1) ∧ id < t1.length ∧
      t.length ≤ t1.length ∧
      slot t1 id = (slot t id + 1) % COUNT_T_card ∧
      ∀ j, j ≠ id → slot t1 j = slot t j := by
  refine ⟨_, ref_add_eq w t id h, by simp; omega, by simp, ?_, ?_⟩
  · rw [slot_set_self _ _ _ (by simp; omega)]; rfl
  · intro j hj
    rw [slot_set_ne _ _ _ _ (Ne.symm hj), slot_pad]

theorem zeros_loop_drop_false_iff (t : List Nat) (n : Nat) :
    zeros_loop (t.drop n) = false ↔ ∃ j, ∃ hj : j < t.length, n ≤ j ∧ t[j] ≠ 0 := by
  rw [← Bool.not_eq_true, zeros_loop_iff, drop_all_zero_iff]
  push_neg
  constructor
  · rintro ⟨j, hj, hn, h⟩; exact ⟨j, hj, hn, h⟩
  · rintro ⟨j, hj, hn, h⟩; exact ⟨j, hj, hn, h⟩


/-! ## Sequences of calls on one identifier -/

theorem released_lt_issued (n k : Nat) (rel : List Nat) (hnd : rel.Nodup)
    (hb : ∀ j ∈ rel, j < n) (hk : k < n) (hnot : k ∉ rel) : rel.length + 1 ≤ n := by
  have hnd2 : (k :: rel).Nodup := List.nodup_cons.mpr ⟨hnot, hnd⟩
  have hsub : (k :: rel) ⊆ List.range n := by
    intro j hj
    rcases List.mem_cons.mp hj with rfl | hj
    · exact List.mem_range.mpr hk
    · exact List.mem_range.mpr (hb j hj)
  have := (List.subperm_of_subset hnd2 hsub).length_le
  simpa using this

theorem step_add_tracks (w id n : Nat) (rel : List Nat) (s : Client)
    (hw : id < 2 ^ w) (hnn : id ≠ id_null w) (hT : Tracks w id n rel s)
    (hsmall : n + 1 - rel.length < COUNT_T_card) :
    ∃ s1, Client.step w s (.add id) = .ok s1 ∧ Tracks w id (n + 1) rel s1 := by
  obtain ⟨t1, hadd, hlen, -, hslot, -⟩ :=
    ref_add_slot w s.table id (succ_representable w id hw hnn)
  refine ⟨⟨t1, s.handles ++ [⟨id⟩]⟩, by simp [Client.step, hadd], ?_⟩
  have hcount := hT.count
  have hlenh := hT.len
  refine ⟨by simp [hlenh], ?_, hT.nodup, fun k hk => Nat.lt_succ_of_lt (hT.bound k hk), ?_,
    hsmall, fun _ => hlen⟩
  · intro k hk hnot
    by_cases hkn : k < n
    · have := hT.live k hkn hnot
      simp only [List.getD_eq_getElem?_getD] at this ⊢
      rw [List.getElem?_append_left (by omega)]
      exact this
    · have hk2 : k = n := by omega
      subst hk2
      simp only [List.getD_eq_getElem?_getD]
      rw [List.getElem?_append_right (by omega)]
      simp [hlenh]
  · show slot t1 id + rel.length = n + 1
    rw [hslot, Nat.mod_eq_of_lt (by simp only [COUNT_T_card] at *; omega)]
    omega

theorem step_release_tracks (w id n k : Nat) (rel : List Nat) (s : Client)
    (hnn : id ≠ id_null w) (hT : Tracks w id n rel s) (hk : k < n) (hnot : k ∉ rel) :
    ∃ s1, Client.step w s (.release k) = .ok s1 ∧ Tracks w id n (k :: rel) s1 := by
  have hpig := released_lt_issued n k rel hT.nodup hT.bound hk hnot
  have hcount := hT.count
  have hsmall := hT.small
  have hlenh := hT.len
  have hinb : id < s.table.length := hT.inb (by omega)
  have hget := hT.live k hk hnot
  have hv : Storage_t.has_value w ⟨id⟩ = true := by simpa [has_value_iff] using hnn
  have hslot : s.table[id] = slot s.table id := (slot_eq_getElem s.table id hinb).symm
  have hrel := ref_release_eq w s.table ⟨id⟩ hv hinb
  refine ⟨⟨s.table.set id ((s.table[id] + COUNT_T_card - 1) % COUNT_T_card),
      s.handles.set k ⟨id_null w⟩⟩, by simp only [Client.step]; rw [hget, hrel], ?_⟩
  refine ⟨by simp [hlenh], ?_, List.nodup_cons.mpr ⟨hnot, hT.nodup⟩, ?_, ?_, ?_, ?_⟩
  · intro j hj hjn
    have hjk : k ≠ j := fun h => hjn (by simp [h])
    have hjr : j ∉ rel := fun h => hjn (List.mem_cons_of_mem _ h)
    have := hT.live j hj hjr
    simp only [List.getD_eq_getElem?_getD] at this ⊢
    rw [List.getElem?_set_ne hjk]
    exact this
  · intro j hj
    rcases List.mem_cons.mp hj with rfl | hj
    · exact hk
    · exact hT.bound j hj
  · show slot (s.table.set id _) id + (k :: rel).length = n
    rw [slot_set_self _ _ _ hinb, hslot,
      count_decrement _ (by omega) (by simp only [COUNT_T_card] at *; omega)]
    simp only [List.length_cons]
    omega
  · simp only [List.length_cons]; omega
  · intro _; simpa using hinb

theorem run_tracks (w id : Nat) (hw : id < 2 ^ w) (hnn : id ≠ id_null w) :
    ∀ (cs : List Call) (s : Client) (n : Nat) (rel : List Nat),
      Tracks w id n rel s → legal_calls id n rel cs = true →
      ∀ p q, cs = p ++ q → ∃ s1, Client.run w s p = .ok s1 ∧
        slot s1.table id + rel.length + num_releases p = n + num_adds p := by
  intro cs
  induction cs with
  | nil =>
    intro s n rel hT _ p q hpq
    have hp : p = [] := (List.append_eq_nil.mp hpq.symm).1
    subst hp
    exact ⟨s, rfl, by simpa [num_adds, num_releases] using hT.count⟩
  | cons c cs ih =>
    intro s n rel hT hl p q hpq
    cases p with
    | nil => exact ⟨s, rfl, by simpa [num_adds, num_releases] using hT.count⟩
    | cons c1 p =>
      simp only [List.cons_append, List.cons.injEq] at hpq
      obtain ⟨rfl, hcs⟩ := hpq
      cases c with
      | add j =>
        simp only [legal_calls, Bool.and_eq_true, beq_iff_eq, decide_eq_true_eq] at hl
        obtain ⟨⟨rfl, hsm⟩, hrest⟩ := hl
        obtain ⟨s1, hstep, hT1⟩ := step_add_tracks w j n rel s hw hnn hT hsm
        obtain ⟨s2, hrun, heq⟩ := ih s1 (n + 1) rel hT1 hrest p q hcs
        refine ⟨s2, by simp [Client.run, hstep, hrun], ?_⟩
        simp only [num_adds, num_releases, List.countP_cons, Call.is_add] at heq ⊢
        simp at heq ⊢
        omega
      | release k =>
        simp only [legal_calls, Bool.and_eq_true, decide_eq_true_eq, Bool.not_eq_eq_eq_not,
          Bool.not_true] at hl
        obtain ⟨⟨hk, hnot⟩, hrest⟩ := hl
        have hnot2 : k ∉ rel := fun h => by
          have hc : rel.contains k = true := List.elem_eq_true_of_mem h
          rw [hc] at hnot
          exact absurd hnot (by decide)
        obtain ⟨s1, hstep, hT1⟩ := step_release_tracks w id n k rel s hnn hT hk hnot2
        obtain ⟨s2, hrun, heq⟩ := ih s1 n (k :: rel) hT1 hrest p q hcs
        refine ⟨s2, by simp [Client.run, hstep, hrun], ?_⟩
        simp only [num_adds, num_releases, List.countP_cons, Call.is_add, List.length_cons] at heq ⊢
        simp at heq ⊢
        omega


/-! ## Sequences of calls on several identifiers: the invariants -/

theorem ref_add_in_range (w : Nat) (t : IdRefCount) (id : Nat) (hlt : id < t.length) :
    IdRefCount.ref_add w t id = (.ok ⟨id⟩, t.set id ((t[id] + 1) % COUNT_T_card)) := by
  have hlen : ¬ t.length ≤ id := by omega
  simp [IdRefCount.ref_add, hlen, hlt]

/-- Whenever `ref_add` returns, its table is the padded one with slot `id` incremented. -/
theorem ref_add_ok_form (w : Nat) (t t1 : IdRefCount) (id : Nat) (h : Storage_t)
    (hr : IdRefCount.ref_add w t id = (.ok h, t1)) :
    h = ⟨id⟩ ∧ t1 = (t ++ List.replicate (id + 1 - t.length) 0).set id
      ((slot t id + 1) % COUNT_T_card) := by
  by_cases hlt : id < t.length
  · rw [ref_add_in_range w t id hlt] at hr
    have hpad : id + 1 - t.length = 0 := by omega
    simp only [Prod.mk.injEq, Except.ok.injEq] at hr
    rw [← hr.1, ← hr.2, hpad, slot_eq_getElem t id hlt]
    simp
  · have hlen : t.length ≤ id := by omega
    by_cases hmod : (id + 1) % 2 ^ sum_bits w = id + 1
    · have hnot : ¬ (id + 1 < t.length) := by omega
      have hres : RefCount.resize t (id + 1) =
          (.ok (), t ++ List.replicate (id + 1 - t.length) 0) := by
        rw [resize_eq, vector_resize_grow t (id + 1) (by omega)]
        simp [hnot]
      have hlt2 : id < t.length + (id + 1 - t.length) := by omega
      have hb : id < (t ++ List.replicate (id + 1 - t.length) 0).length := by simp; omega
      have hget : (t ++ List.replicate (id + 1 - t.length) 0)[id] = 0 := by
        rw [List.getElem_append_right hlen]; simp
      have hd : slot t id = 0 := by
        simp [slot, List.getD_eq_getElem?_getD, List.getElem?_eq_none hlen]
      unfold IdRefCount.ref_add at hr
      simp only [hlen, if_true, hmod, hres] at hr
      simp [hlt2, hget] at hr
      rw [hd, ← hr.1, ← hr.2]
      simp
    · exfalso
      have hle : (id + 1) % 2 ^ sum_bits w ≤ id + 1 := Nat.mod_le _ _
      have hn : (id + 1) % 2 ^ sum_bits w ≤ id := by omega
      unfold IdRefCount.ref_add at hr
      simp only [hlen, if_true] at hr
      rw [resize_eq] at hr
      by_cases hc : (id + 1) % 2 ^ sum_bits w < t.length ∧
          zeros_loop (t.drop ((id + 1) % 2 ^ sum_bits w)) = false
      · simp [hc] at hr
      · simp only [hc, if_false] at hr
        have hlen2 : (vector_resize t ((id + 1) % 2 ^ sum_bits w) 0).length =
            (id + 1) % 2 ^ sum_bits w := by
          simp [vector_resize]; omega
        have hnlt : ¬ id < (vector_resize t ((id + 1) % 2 ^ sum_bits w) 0).length := by
          rw [hlen2]; omega
        simp [hnlt] at hr

/-- Whenever the contract check inside `ref_add` fails, the table is as it was. -/
theorem ref_add_assert_form (w : Nat) (t t1 : IdRefCount) (id : Nat)
    (hr : IdRefCount.ref_add w t id = (.error .assertion, t1)) : t1 = t := by
  by_cases hlt : id < t.length
  · rw [ref_add_in_range w t id hlt] at hr
    simp at hr
  · have hlen : t.length ≤ id := by omega
    unfold IdRefCount.ref_add at hr
    simp only [hlen, if_true] at hr
    rw [resize_eq] at hr
    by_cases hc : (id + 1) % 2 ^ sum_bits w < t.length ∧
        zeros_loop (t.drop ((id + 1) % 2 ^ sum_bits w)) = false
    · simp only [hc, and_self, if_true] at hr
      simp only [Prod.mk.injEq] at hr
      exact hr.2.symm
    · simp only [hc, if_false] at hr
      by_cases hi : id < (vector_resize t ((id + 1) % 2 ^ sum_bits w) 0).length
      · simp [hi] at hr
      · simp [hi] at hr

theorem null_has_no_value (w : Nat) : Storage_t.has_value w (Storage_t.null w) = false := by
  simp [Storage_t.has_value, Storage_t.null]

theorem eq_null_of_no_value (w : Nat) (h : Storage_t)
    (hv : Storage_t.has_value w h = false) : h = Storage_t.null w := by
  cases h with
  | mk m =>
    simp [Storage_t.has_value] at hv
    simp [Storage_t.null, hv]

theorem real_add_iff (w id : Nat) :
    Call.real w (.add id) = true ↔ id < 2 ^ w ∧ id ≠ id_null w := by
  simp [Call.real]

theorem getD_cases (w : Nat) (hs : List Storage_t) (k : Nat) :
    (hs.length ≤ k ∧ hs.getD k (Storage_t.null w) = Storage_t.null w) ∨
    (∃ hk : k < hs.length, hs.getD k (Storage_t.null w) = hs[k]) := by
  by_cases hk : k < hs.length
  · right
    exact ⟨hk, by simp [List.getD_eq_getElem?_getD, List.getElem?_eq_getElem hk]⟩
  · left
    exact ⟨by omega, by simp [List.getD_eq_getElem?_getD, List.getElem?_eq_none (Nat.le_of_not_lt hk)]⟩

theorem getD_mem_of_value (w : Nat) (hs : List Storage_t) (k : Nat)
    (hv : Storage_t.has_value w (hs.getD k (Storage_t.null w)) = true) :
    k < hs.length ∧ hs.getD k (Storage_t.null w) ∈ hs := by
  rcases getD_cases w hs k with ⟨_, hnull⟩ | ⟨hk, heq⟩
  · rw [hnull, null_has_no_value] at hv
    exact absurd hv (by decide)
  · exact ⟨hk, by rw [heq]; exact List.getElem_mem hk⟩

/-- The state after a `ref_add` on a real identifier. -/
theorem step_add_form (w : Nat) (s : Client) (id : Nat) (hreal : Call.real w (.add id) = true) :
    Client.step w s (.add id) =
      .ok ⟨(s.table ++ List.replicate (id + 1 - s.table.length) 0).set id
        ((s.table.getD id 0 + 1) % COUNT_T_card), s.handles ++ [⟨id⟩]⟩ := by
  obtain ⟨hw, hnn⟩ := (real_add_iff w id).mp hreal
  simp only [Client.step, ref_add_eq w s.table id (succ_representable w id hw hnn)]

/-- The state after a `ref_release` by a caller whose live handles are in range. -/
theorem step_release_form (w : Nat) (s : Client) (k : Nat) (hin : Client.in_range w s) :
    Client.step w s (.release k) =
      .ok ⟨if Storage_t.has_value w (s.handles.getD k (Storage_t.null w)) = true then
          s.table.set (s.handles.getD k (Storage_t.null w)).m_id
            ((slot s.table (s.handles.getD k (Storage_t.null w)).m_id + COUNT_T_card - 1)
              % COUNT_T_card)
        else s.table, s.handles.set k (Storage_t.null w)⟩ := by
  by_cases hv : Storage_t.has_value w (s.handles.getD k (Storage_t.null w)) = true
  · obtain ⟨-, hmem⟩ := getD_mem_of_value w s.handles k hv
    have hlt := hin _ hmem hv
    simp only [Client.step]
    rw [ref_release_eq w s.table _ hv hlt, slot_eq_getElem s.table _ hlt, if_pos hv]
    rfl
  · have hv2 : Storage_t.has_value w (s.handles.getD k (Storage_t.null w)) = false := by
      simpa using hv
    have hnull := eq_null_of_no_value w _ hv2
    simp only [Client.step]
    rw [ref_release_null w s.table _ hv2, if_neg hv, hnull]

theorem live_count_add (w : Nat) (hs : List Storage_t) (id i : Nat) (hnn : id ≠ id_null w) :
    live_count w (hs ++ [⟨id⟩]) i = live_count w hs i + (if id = i then 1 else 0) := by
  have hv : Storage_t.has_value w ⟨id⟩ = true := by simpa [has_value_iff] using hnn
  simp only [live_count, List.countP_append, List.countP_cons, List.countP_nil, hv,
    Bool.true_and, beq_iff_eq, Nat.zero_add]

theorem live_count_release (w : Nat) (hs : List Storage_t) (k i : Nat) :
    live_count w (hs.set k (Storage_t.null w)) i =
      live_count w hs i -
        (if Storage_t.has_value w (hs.getD k (Storage_t.null w)) = true ∧
          (hs.getD k (Storage_t.null w)).m_id = i then 1 else 0) := by
  rcases getD_cases w hs k with ⟨hk, hnull⟩ | ⟨hk, heq⟩
  · rw [hnull, List.set_eq_of_length_le hk]
    simp [null_has_no_value]
  · rw [heq]
    simp only [live_count]
    rw [List.countP_set _ _ _ _ hk]
    simp [null_has_no_value]

theorem live_count_pos (w : Nat) (hs : List Storage_t) (h : Storage_t) (hmem : h ∈ hs)
    (hv : Storage_t.has_value w h = true) : 1 ≤ live_count w hs h.m_id := by
  have : 0 < live_count w hs h.m_id := by
    simp only [live_count]
    rw [List.countP_pos_iff]
    exact ⟨h, hmem, by simp [hv]⟩
  omega

theorem step_add_in_range (w : Nat) (s : Client) (id : Nat)
    (hreal : Call.real w (.add id) = true) (hin : Client.in_range w s) :
    ∃ s1, Client.step w s (.add id) = .ok s1 ∧ Client.in_range w s1 ∧
      s1.table.length = max s.table.length (id + 1) ∧
      s1.handles = Call.handles w s.handles (.add id) := by
  refine ⟨_, step_add_form w s id hreal, ?_, by simp; omega, rfl⟩
  intro h hmem hv
  simp only [List.length_set, List.length_append, List.length_replicate]
  rcases List.mem_append.mp hmem with hm | hm
  · have := hin h hm hv
    omega
  · rw [List.mem_singleton.mp hm]
    show id < _
    omega

theorem step_release_in_range (w : Nat) (s : Client) (k : Nat) (hin : Client.in_range w s) :
    ∃ s1, Client.step w s (.release k) = .ok s1 ∧ Client.in_range w s1 ∧
      s1.table.length = s.table.length ∧
      s1.handles = Call.handles w s.handles (.release k) := by
  have hlen : (if Storage_t.has_value w (s.handles.getD k (Storage_t.null w)) = true then
      s.table.set (s.handles.getD k (Storage_t.null w)).m_id
        ((slot s.table (s.handles.getD k (Storage_t.null w)).m_id + COUNT_T_card - 1)
          % COUNT_T_card)
      else s.table).length = s.table.length := by
    split <;> simp
  refine ⟨_, step_release_form w s k hin, ?_, hlen, rfl⟩
  intro h hmem hv
  refine lt_of_lt_of_eq ?_ hlen.symm
  rcases List.mem_or_eq_of_mem_set hmem with hm | hm
  · exact hin h hm hv
  · rw [hm, null_has_no_value] at hv
    exact absurd hv (by decide)

theorem run_in_range (w : Nat) :
    ∀ (p : List Call) (s : Client), Client.in_range w s →
      (∀ c ∈ p, Call.real w c = true) →
      ∃ s1, Client.run w s p = .ok s1 ∧ Client.in_range w s1 ∧
        s1.table.length =
          max s.table.length (((acquired p).map (fun i => i + 1)).foldr max 0) ∧
        s1.handles = handles_after w s.handles p := by
  intro p
  induction p with
  | nil =>
    intro s hin _
    exact ⟨s, rfl, hin, by simp [acquired], rfl⟩
  | cons c p ih =>
    intro s hin hreal
    have hc : Call.real w c = true := hreal c (List.mem_cons_self c p)
    have hp : ∀ c1 ∈ p, Call.real w c1 = true :=
      fun c1 h1 => hreal c1 (List.mem_cons_of_mem c h1)
    cases c with
    | add id =>
      obtain ⟨s1, hstep, hin1, hlen1, hh1⟩ := step_add_in_range w s id hc hin
      obtain ⟨s2, hrun, hin2, hlen2, hh2⟩ := ih s1 hin1 hp
      refine ⟨s2, by simp [Client.run, hstep, hrun], hin2, ?_, ?_⟩
      · rw [hlen2, hlen1]
        simp only [acquired, List.map_cons, List.foldr_cons]
        omega
      · rw [hh2, hh1]; rfl
    | release k =>
      obtain ⟨s1, hstep, hin1, hlen1, hh1⟩ := step_release_in_range w s k hin
      obtain ⟨s2, hrun, hin2, hlen2, hh2⟩ := ih s1 hin1 hp
      refine ⟨s2, by simp [Client.run, hstep, hrun], hin2, ?_, ?_⟩
      · rw [hlen2, hlen1]
        simp only [acquired]
      · rw [hh2, hh1]; rfl

theorem policy_size_eq (cs : List Call) :
    policy_size cs = ((acquired cs).map (fun i => i + 1)).foldr max 0 := by
  unfold policy_size
  generalize acquired cs = l
  induction l with
  | nil => simp
  | cons i l ih =>
    simp only [List.map_cons, List.foldr_cons, ← ih]
    by_cases hl : l = []
    · simp [hl]
    · simp only [hl, if_false]
      simp
      omega

theorem acquired_append (p q : List Call) : acquired (p ++ q) = acquired p ++ acquired q := by
  induction p with
  | nil => rfl
  | cons c p ih =>
    cases c with
    | add id => simp [acquired, ih]
    | release k => simp [acquired, ih]

theorem need_append (l m : List Nat) :
    (l ++ m).foldr max 0 = max (l.foldr max 0) (m.foldr max 0) := by
  induction l with
  | nil => simp
  | cons i l ih =>
    simp only [List.cons_append, List.foldr_cons, ih]
    omega

theorem policy_size_mono (p q : List Call) : policy_size p ≤ policy_size (p ++ q) := by
  rw [policy_size_eq, policy_size_eq, acquired_append, List.map_append, need_append]
  omega

theorem step_add_counted (w : Nat) (s : Client) (id : Nat)
    (hreal : Call.real w (.add id) = true)
    (hroom : live_count w s.handles id + 1 < COUNT_T_card) (hc : Client.counted w s) :
    ∃ s1, Client.step w s (.add id) = .ok s1 ∧ Client.counted w s1 ∧
      s1.handles = Call.handles w s.handles (.add id) := by
  obtain ⟨s1, hstep, hin1, -, hh1⟩ := step_add_in_range w s id hreal hc.range
  have hform := step_add_form w s id hreal
  have hs1 : s1 = _ := Except.ok.inj (hstep.symm.trans hform)
  obtain ⟨-, hnn⟩ := (real_add_iff w id).mp hreal
  have hb : id < (s.table ++ List.replicate (id + 1 - s.table.length) 0).length := by
    simp; omega
  refine ⟨s1, hstep, ⟨?_, ?_, hin1⟩, hh1⟩
  · intro i
    rw [hs1]
    show slot (List.set _ id _) i = live_count w (s.handles ++ [⟨id⟩]) i
    rw [live_count_add w s.handles id i hnn]
    by_cases hi : id = i
    · subst hi
      rw [slot_set_self _ _ _ hb, if_pos rfl, ← hc.slots id]
      have hlt : slot s.table id + 1 < COUNT_T_card := by rw [hc.slots id]; exact hroom
      exact Nat.mod_eq_of_lt hlt
    · rw [slot_set_ne _ _ _ _ hi, slot_pad, if_neg hi, hc.slots i]
      rfl
  · intro i
    rw [hh1]
    show live_count w (s.handles ++ [⟨id⟩]) i < COUNT_T_card
    rw [live_count_add w s.handles id i hnn]
    by_cases hi : id = i
    · subst hi
      rw [if_pos rfl]; exact hroom
    · rw [if_neg hi]; exact hc.fits i

theorem step_release_counted (w : Nat) (s : Client) (k : Nat) (hc : Client.counted w s) :
    ∃ s1, Client.step w s (.release k) = .ok s1 ∧ Client.counted w s1 ∧
      s1.handles = Call.handles w s.handles (.release k) := by
  obtain ⟨s1, hstep, hin1, -, hh1⟩ := step_release_in_range w s k hc.range
  have hform := step_release_form w s k hc.range
  have hs1 : s1 = _ := Except.ok.inj (hstep.symm.trans hform)
  refine ⟨s1, hstep, ⟨?_, ?_, hin1⟩, hh1⟩
  · intro i
    have hlc := live_count_release w s.handles k i
    rw [hs1]
    show slot (if _ then _ else _) i = live_count w (s.handles.set k (Storage_t.null w)) i
    rw [hlc]
    by_cases hv : Storage_t.has_value w (s.handles.getD k (Storage_t.null w)) = true
    · obtain ⟨-, hmem⟩ := getD_mem_of_value w s.handles k hv
      have hlt := hc.range _ hmem hv
      have hpos := live_count_pos w s.handles _ hmem hv
      rw [if_pos hv]
      by_cases hi : (s.handles.getD k (Storage_t.null w)).m_id = i
      · rw [if_pos ⟨hv, hi⟩, ← hi, slot_set_self _ _ _ hlt, hc.slots]
        exact count_decrement _ hpos (hc.fits _)
      · rw [slot_set_ne _ _ _ _ hi, hc.slots i, if_neg (fun h => hi h.2)]
        rfl
    · rw [if_neg hv, if_neg (fun h => hv h.1), hc.slots i]
      rfl
  · intro i
    rw [hh1]
    show live_count w (s.handles.set k (Storage_t.null w)) i < COUNT_T_card
    rw [live_count_release w s.handles k i]
    exact lt_of_le_of_lt (Nat.sub_le _ _) (hc.fits i)

theorem run_counted (w : Nat) :
    ∀ (cs : List Call) (s : Client), Client.counted w s →
      proper_calls w s.handles cs = true →
      ∃ s1, Client.run w s cs = .ok s1 ∧ Client.counted w s1 ∧
        s1.handles = handles_after w s.handles cs := by
  intro cs
  induction cs with
  | nil =>
    intro s hc _
    exact ⟨s, rfl, hc, rfl⟩
  | cons c cs ih =>
    intro s hc hp
    cases c with
    | add id =>
      simp only [proper_calls, Bool.and_eq_true, decide_eq_true_eq] at hp
      obtain ⟨⟨hreal, hroom⟩, hrest⟩ := hp
      obtain ⟨s1, hstep, hc1, hh1⟩ := step_add_counted w s id hreal hroom hc
      rw [← hh1] at hrest
      obtain ⟨s2, hrun, hc2, hh2⟩ := ih s1 hc1 hrest
      refine ⟨s2, by simp [Client.run, hstep, hrun], hc2, ?_⟩
      rw [hh2, hh1]; rfl
    | release k =>
      simp only [proper_calls] at hp
      obtain ⟨s1, hstep, hc1, hh1⟩ := step_release_counted w s k hc
      rw [← hh1] at hp
      obtain ⟨s2, hrun, hc2, hh2⟩ := ih s1 hc1 hp
      refine ⟨s2, by simp [Client.run, hstep, hrun], hc2, ?_⟩
      rw [hh2, hh1]; rfl

theorem counted_start (w : Nat) (t : IdRefCount) (hz : ∀ c ∈ t, c = 0) :
    Client.counted w ⟨t, []⟩ := by
  refine ⟨?_, ?_, ?_⟩
  · intro i
    show slot t i = live_count w [] i
    by_cases hi : i < t.length
    · rw [slot_eq_getElem t i hi, hz _ (List.getElem_mem hi)]; rfl
    · simp [slot, live_count, List.getD_eq_getElem?_getD,
        List.getElem?_eq_none (Nat.le_of_not_lt hi)]
  · intro i
    show live_count w [] i < COUNT_T_card
    simp [live_count]
  · intro h hmem
    exact absurd hmem (List.not_mem_nil h)

theorem getD_append_left (w : Nat) (hs : List Storage_t) (x : Storage_t) (k : Nat)
    (hk : k < hs.length) :
    (hs ++ [x]).getD k (Storage_t.null w) = hs.getD k (Storage_t.null w) := by
  simp only [List.getD_eq_getElem?_getD]
  rw [List.getElem?_append_left hk]

theorem getD_set_null (w : Nat) (hs : List Storage_t) (k j : Nat) :
    Storage_t.has_value w (hs.getD j (Storage_t.null w)) = false →
    Storage_t.has_value w ((hs.set k (Storage_t.null w)).getD j (Storage_t.null w)) = false := by
  intro h
  simp only [List.getD_eq_getElem?_getD] at h ⊢
  rw [List.getElem?_set]
  by_cases hkj : k = j
  · rw [if_pos hkj]
    split <;> exact null_has_no_value w
  · rw [if_neg hkj]; exact h

theorem getD_set_self_null (w : Nat) (hs : List Storage_t) (k : Nat) :
    Storage_t.has_value w ((hs.set k (Storage_t.null w)).getD k (Storage_t.null w)) = false := by
  simp only [List.getD_eq_getElem?_getD]
  rw [List.getElem?_set, if_pos rfl]
  split <;> exact null_has_no_value w

theorem balanced_all_null (w : Nat) :
    ∀ (cs : List Call) (hs : List Storage_t) (n : Nat) (rel : List Nat),
      hs.length = n →
      (∀ k ∈ rel, k < n ∧ Storage_t.has_value w (hs.getD k (Storage_t.null w)) = false) →
      balanced_calls n rel cs = true →
      ∀ h ∈ handles_after w hs cs, Storage_t.has_value w h = false := by
  intro cs
  induction cs with
  | nil =>
    intro hs n rel hlen hrel hb h hmem
    simp only [balanced_calls, List.all_eq_true, List.mem_range] at hb
    have hmem2 : h ∈ hs := hmem
    obtain ⟨k, hk, rfl⟩ := List.mem_iff_getElem.mp hmem2
    have hin : k ∈ rel := List.mem_of_elem_eq_true (hb k (by omega))
    have := (hrel k hin).2
    simpa [List.getD_eq_getElem?_getD, List.getElem?_eq_getElem hk] using this
  | cons c cs ih =>
    intro hs n rel hlen hrel hb
    cases c with
    | add j =>
      simp only [balanced_calls] at hb
      refine ih (hs ++ [⟨j⟩]) (n + 1) rel (by simp [hlen]) ?_ hb
      intro k hk
      obtain ⟨hkn, hkv⟩ := hrel k hk
      refine ⟨by omega, ?_⟩
      rw [getD_append_left w hs ⟨j⟩ k (by omega)]
      exact hkv
    | release k =>
      simp only [balanced_calls, Bool.and_eq_true, decide_eq_true_eq] at hb
      obtain ⟨⟨hk, -⟩, hrest⟩ := hb
      refine ih (hs.set k (Storage_t.null w)) n (k :: rel) (by simp [hlen]) ?_ hrest
      intro j hj
      rcases List.mem_cons.mp hj with rfl | hj
      · exact ⟨hk, getD_set_self_null w hs j⟩
      · exact ⟨(hrel j hj).1, getD_set_null w hs k j (hrel j hj).2⟩

theorem live_count_zero_of_null (w : Nat) (hs : List Storage_t)
    (hnull : ∀ h ∈ hs, Storage_t.has_value w h = false) (i : Nat) : live_count w hs i = 0 := by
  simp only [live_count]
  rw [List.countP_eq_zero]
  intro h hmem
  simp [hnull h hmem]

theorem count_round_trip (c : Nat) (h : c < COUNT_T_card) :
    ((c + 1) % COUNT_T_card + COUNT_T_card - 1) % COUNT_T_card = c := by
  simp only [COUNT_T_card] at *
  omega

theorem set_same (l : List Nat) (i : Nat) (h : i < l.length) : l.set i l[i] = l := by
  apply List.ext_getElem?
  intro n
  rw [List.getElem?_set]
  by_cases hin : i = n
  · subst hin
    simp [h]
  · simp [hin]

theorem zeros_loop_replicate (n : Nat) : zeros_loop (List.replicate n 0) = true := by
  rw [zeros_loop_iff]
  intro c hc
  exact (List.mem_replicate.mp hc).2

/-! ## The properties -/

/-- C1. Conservation. Start from a table whose slot for the (non-null)
identifier `id` is zero, with no handle held. For every sequence of
`ref_add(id)` and `ref_release(h)` calls in which each released `h` is a
handle returned by an earlier `ref_add(id)` and not released yet, and which
keeps fewer than `2 ^ 16` handles outstanding, every initial part of the
sequence runs without fault, and after it the slot of `id` equals the number
of `ref_add` calls so far minus the number of `ref_release` calls so far, the
latter never exceeding the former. -/
theorem conservation (w id : Nat) (t : IdRefCount) (cs : List Call)
    (hw : id < 2 ^ w) (hnn : id ≠ id_null w)
    (h0 : slot t id = 0) (hl : legal_calls id 0 [] cs = true) :
    ∀ p q, cs = p ++ q → ∃ s, Client.run w ⟨t, []⟩ p = .ok s ∧
      num_releases p ≤ num_adds p ∧
      slot s.table id = num_adds p - num_releases p := by
  intro p q hpq
  have hT : Tracks w id 0 [] ⟨t, []⟩ :=
    ⟨rfl, fun k hk => absurd hk (Nat.not_lt_zero k), List.nodup_nil,
      fun k hk => absurd hk (List.not_mem_nil k), by simpa using h0, by decide,
      fun h => absurd h (Nat.lt_irrefl 0)⟩
  obtain ⟨s, hrun, heq⟩ := run_tracks w id hw hnn cs ⟨t, []⟩ 0 [] hT hl p q hpq
  simp only [List.length_nil, Nat.add_zero, Nat.zero_add] at heq
  exact ⟨s, hrun, by omega, by omega⟩

theorem conservation_witness :
    (5 < 2 ^ 32 ∧ 5 ≠ id_null 32 ∧ slot [] 5 = 0 ∧
      legal_calls 5 0 [] [.add 5, .add 5, .release 1, .add 5, .release 0, .release 2] = true) ∧
    ∀ p q, [Call.add 5, .add 5, .release 1, .add 5, .release 0, .release 2] = p ++ q →
      ∃ s, Client.run 32 ⟨[], []⟩ p = .ok s ∧
        num_releases p ≤ num_adds p ∧
        slot s.table 5 = num_adds p - num_releases p :=
  ⟨by decide, conservation 32 5 [] [.add 5, .add 5, .release 1, .add 5, .release 0, .release 2]
    (by decide) (by decide) (by decide) (by decide)⟩

/-- C2. For every table and every `newSize`, `resize(newSize)` fails its
contract check exactly when `newSize < size()` and some slot at an index
`>= newSize` is non-zero; it stops for no other reason; when it fails the
table is left as it was. Scenario: `ref_add(2)` on the empty table, then
`resize(1)`, fails. -/
theorem resize_fails_iff (t : RefCount) (newSize : Nat) :
    ((RefCount.resize t newSize).1 = .error .assertion ↔
      newSize < t.length ∧ ∃ j, ∃ hj : j < t.length, newSize ≤ j ∧ t[j] ≠ 0) ∧
    ((RefCount.resize t newSize).1 = .error .assertion → (RefCount.resize t newSize).2 = t) ∧
    (RefCount.resize t newSize).1 ≠ .error .undefined ∧
    (∀ w, ∃ t1, IdRefCount.ref_add w RefCount.empty 2 = (.ok ⟨2⟩, t1) ∧
      RefCount.resize t1 1 = (.error .assertion, t1)) := by
  rw [resize_eq, ← zeros_loop_drop_false_iff]
  refine ⟨?_, ?_, ?_, ?_⟩
  · by_cases hc : newSize < t.length ∧ zeros_loop (t.drop newSize) = false
    · simp [hc]
    · simp only [hc, if_false]; simp
  · by_cases hc : newSize < t.length ∧ zeros_loop (t.drop newSize) = false
    · simp [hc]
    · simp only [hc, if_false]; simp
  · by_cases hc : newSize < t.length ∧ zeros_loop (t.drop newSize) = false
    · simp [hc]
    · simp only [hc, if_false]; simp
  · intro w
    have hrep : 2 + 1 < 2 ^ sum_bits w :=
      lt_of_lt_of_le (by decide : 2 + 1 < 2 ^ 32)
        (Nat.pow_le_pow_right (by decide) (le_max_right w 32))
    refine ⟨[0, 0, 1], ?_, by decide⟩
    rw [ref_add_eq w RefCount.empty 2 hrep]
    simp [RefCount.empty, slot]

/-- C3. For every table and every non-null identifier whose integer value `i`
is `>= size()`, `ref_add` returns a non-null handle wrapping the identifier
and leaves a table of exactly `i + 1` slots in which every former slot keeps
its value, every new slot below `i` is zero and slot `i` is `1`. -/
theorem ref_add_growth (w : Nat) (t : IdRefCount) (id : Nat)
    (hw : id < 2 ^ w) (hnn : id ≠ id_null w) (hge : t.length ≤ id) :
    ∃ t1, IdRefCount.ref_add w t id = (.ok ⟨id⟩, t1) ∧
      Storage_t.has_value w ⟨id⟩ = true ∧
      t1.length = id + 1 ∧
      (∀ j, ∀ hj : j < t.length, t1[j]? = some t[j]) ∧
      (∀ j, t.length ≤ j → j < id → t1[j]? = some 0) ∧
      t1[id]? = some 1 := by
  refine ⟨_, ref_add_eq w t id (succ_representable w id hw hnn), ?_, ?_, ?_, ?_, ?_⟩
  · simpa [has_value_iff] using hnn
  · simp; omega
  · intro j hj
    have hne : id ≠ j := by omega
    rw [List.getElem?_set_ne hne, List.getElem?_append_left hj, List.getElem?_eq_getElem hj]
  · intro j hlo hhi
    have hne : id ≠ j := by omega
    rw [List.getElem?_set_ne hne, List.getElem?_append_right hlo,
      List.getElem?_eq_getElem (by simp; omega), List.getElem_replicate]
  · have hd : t.getD id 0 = 0 := by
      simp [List.getD_eq_getElem?_getD, List.getElem?_eq_none hge]
    rw [hd, List.getElem?_set_self (by simp; omega)]
    rfl

theorem ref_add_growth_witness :
    (5 < 2 ^ 32 ∧ 5 ≠ id_null 32 ∧ [3, 0].length ≤ 5) ∧
    ∃ t1, IdRefCount.ref_add 32 [3, 0] 5 = (.ok ⟨5⟩, t1) ∧
      Storage_t.has_value 32 ⟨5⟩ = true ∧
      t1.length = 5 + 1 ∧
      (∀ j, ∀ hj : j < [3, 0].length, t1[j]? = some [3, 0][j]) ∧
      (∀ j, [3, 0].length ≤ j → j < 5 → t1[j]? = some 0) ∧
      t1[5]? = some 1 :=
  ⟨by decide, ref_add_growth 32 [3, 0] 5 (by decide) (by decide) (by decide)⟩

/-- C4, as the code has it. The function `ref_release` makes no contract check: for
every table and every non-null handle whose identifier's slot holds zero, the
call returns normally, the slot wraps around to `2 ^ 16 - 1` and the handle
becomes null. -/
theorem release_of_zero_slot_wraps (w : Nat) (t : IdRefCount) (h : Storage_t)
    (hv : Storage_t.has_value w h = true) (hz : t[h.m_id]? = some 0) :
    IdRefCount.ref_release w t h =
      (.ok (), t.set h.m_id (COUNT_T_card - 1), Storage_t.null w) := by
  have hi : h.m_id < t.length := by
    by_contra hc
    rw [List.getElem?_eq_none (by omega)] at hz
    exact absurd hz (by simp)
  have hget : t[h.m_id] = 0 := by
    rw [List.getElem?_eq_getElem hi] at hz
    exact Option.some.inj hz
  rw [ref_release_eq w t h hv hi, hget]
  rfl

theorem release_of_zero_slot_wraps_witness :
    (Storage_t.has_value 32 ⟨1⟩ = true ∧ [4, 0][(⟨1⟩ : Storage_t).m_id]? = some 0) ∧
    IdRefCount.ref_release 32 [4, 0] ⟨1⟩ =
      (.ok (), [4, 0].set (⟨1⟩ : Storage_t).m_id (COUNT_T_card - 1), Storage_t.null 32) :=
  ⟨by decide, release_of_zero_slot_wraps 32 [4, 0] ⟨1⟩ (by decide) (by decide)⟩

/-- C4, as stated, fails: on the table `[0]`, releasing a non-null handle on
identifier `0` (whose slot holds zero) does not fail the contract check; the
call returns and the slot holds `65535`. -/
theorem release_of_zero_slot_counterexample :
    Storage_t.has_value 32 ⟨0⟩ = true ∧ [0][(⟨0⟩ : Storage_t).m_id]? = some 0 ∧
    (IdRefCount.ref_release 32 [0] ⟨0⟩).1 ≠ .error .assertion ∧
    IdRefCount.ref_release 32 [0] ⟨0⟩ = (.ok (), [65535], ⟨4294967295⟩) := by
  decide

/-- C5. For every table and every non-null handle whose identifier's integer
value `i` is `< size()` and whose slot `i` holds a count `>= 1` (a value of
the counter type, so below `2 ^ 16`), `ref_release`
returns, lowers slot `i` by exactly one, keeps the size, and leaves the handle
null. For every handle, `has_value()` is false once `ref_release` has
returned; it returns exactly for a null handle and for a handle whose integer
value is `< size()`. -/
theorem ref_release_post (w : Nat) (t : IdRefCount) (h : Storage_t) :
    (Storage_t.has_value w h = true → ∀ hi : h.m_id < t.length,
      1 ≤ t[h.m_id] → t[h.m_id] < COUNT_T_card →
      ∃ t1, IdRefCount.ref_release w t h = (.ok (), t1, Storage_t.null w) ∧
        t1.length = t.length ∧ t1[h.m_id]? = some (t[h.m_id] - 1)) ∧
    (∀ t1 h1, IdRefCount.ref_release w t h = (.ok (), t1, h1) →
      Storage_t.has_value w h1 = false) ∧
    ((IdRefCount.ref_release w t h).1 = .ok () ↔
      (Storage_t.has_value w h = false ∨ h.m_id < t.length)) := by
  refine ⟨?_, ?_, ?_⟩
  · intro hv hi h1 hlt
    refine ⟨_, ref_release_eq w t h hv hi, by simp, ?_⟩
    rw [List.getElem?_set_self hi, count_decrement _ h1 hlt]
  · intro t1 h1 hr
    exact ref_release_leaves_null w t t1 h h1 hr
  · cases hv : Storage_t.has_value w h
    · rw [ref_release_null w t h hv]; simp
    · by_cases hi : h.m_id < t.length
      · rw [ref_release_eq w t h hv hi]; simp [hi]
      · rw [ref_release_out w t h hv (by omega)]; simp [hi]

theorem ref_release_post_witness :
    ∃ t1, IdRefCount.ref_release 32 [2, 5] ⟨1⟩ = (.ok (), t1, Storage_t.null 32) ∧
      t1.length = [2, 5].length ∧ t1[(⟨1⟩ : Storage_t).m_id]? = some ([2, 5][1] - 1) :=
  (ref_release_post 32 [2, 5] ⟨1⟩).1 (by decide) (by decide) (by decide) (by decide)

/-- C6. For every table and every null handle, `ref_release` does not fail,
leaves the table (its size and every slot) as it was and leaves the handle
null. Hence, after a release that returned, releasing the same handle again
changes nothing. -/
theorem ref_release_null_noop (w : Nat) (t : IdRefCount) (h : Storage_t) :
    (Storage_t.has_value w h = false →
      IdRefCount.ref_release w t h = (.ok (), t, h)) ∧
    (∀ t1 h1, IdRefCount.ref_release w t h = (.ok (), t1, h1) →
      IdRefCount.ref_release w t1 h1 = (.ok (), t1, h1)) := by
  refine ⟨ref_release_null w t h, ?_⟩
  intro t1 h1 hr
  exact ref_release_null w t1 h1 (ref_release_leaves_null w t t1 h h1 hr)

theorem ref_release_null_noop_witness :
    IdRefCount.ref_release 32 [0, 3] (Storage_t.null 32) = (.ok (), [0, 3], Storage_t.null 32) ∧
    IdRefCount.ref_release 32 [0, 2] (Storage_t.null 32) = (.ok (), [0, 2], Storage_t.null 32) :=
  ⟨(ref_release_null_noop 32 [0, 3] (Storage_t.null 32)).1 (by decide),
   (ref_release_null_noop 32 [0, 3] ⟨1⟩).2 [0, 2] (Storage_t.null 32) (by decide)⟩

/-- C7. For every table `d`, the check made by the destruction of `d` and the
check made by a move assignment into `d` pass exactly when every slot of `d`
is zero, that is when `only_zeros_remaining(0)` is true; when they do not pass
the fault is the failed assertion and `d` is left as it was; when the move
assignment passes, `d` afterwards holds exactly the slots of the source. -/
theorem teardown_check (d src : RefCount) :
    (RefCount.destructor d = .ok () ↔ ∀ c ∈ d, c = 0) ∧
    ((RefCount.move_assign d src).1 = .ok () ↔ ∀ c ∈ d, c = 0) ∧
    ((∀ c ∈ d, c = 0) ↔ RefCount.only_zeros_remaining d 0 = .ok true) ∧
    (RefCount.destructor d ≠ .ok () → RefCount.destructor d = .error .assertion) ∧
    ((RefCount.move_assign d src).1 = .ok () → (RefCount.move_assign d src).2 = src) ∧
    ((RefCount.move_assign d src).1 ≠ .ok () →
      RefCount.move_assign d src = (.error .assertion, d)) := by
  rw [destructor_eq, move_assign_eq, only_zeros_remaining_eq d 0 (Nat.zero_le _),
    ← zeros_loop_iff, List.drop_zero]
  cases hz : zeros_loop d <;> simp

/-- C8. For every table and every `newSize` for which `resize` does not fail,
the resulting table has exactly `newSize` slots, every slot at an index below
both the old size and `newSize` keeps its value, and every slot at an index
`>=` the old size is zero. -/
theorem resize_post (t : RefCount) (newSize : Nat)
    (h : (RefCount.resize t newSize).1 = .ok ()) :
    (RefCount.resize t newSize).2.length = newSize ∧
    (∀ j, ∀ hj : j < t.length, j < newSize → (RefCount.resize t newSize).2[j]? = some t[j]) ∧
    (∀ j, t.length ≤ j → j < newSize → (RefCount.resize t newSize).2[j]? = some 0) := by
  rw [resize_eq] at h ⊢
  by_cases hc : newSize < t.length ∧ zeros_loop (t.drop newSize) = false
  · simp [hc] at h
  · simp only [hc, if_false]
    refine ⟨?_, ?_, ?_⟩
    · simp [vector_resize]; omega
    · intro j hj hjn
      have hjt : j < (t.take newSize).length := by simp; omega
      simp only [vector_resize]
      rw [List.getElem?_append_left hjt, List.getElem?_eq_getElem hjt, List.getElem_take]
    · intro j hlo hhi
      have hle : t.length ≤ newSize := by omega
      rw [vector_resize_grow t newSize hle, List.getElem?_append_right hlo,
        List.getElem?_eq_getElem (by simp; omega), List.getElem_replicate]

theorem resize_post_witness :
    (RefCount.resize [1, 2, 0] 5).1 = .ok () ∧
    ((RefCount.resize [1, 2, 0] 5).2.length = 5 ∧
    (∀ j, ∀ hj : j < [1, 2, 0].length, j < 5 →
      (RefCount.resize [1, 2, 0] 5).2[j]? = some [1, 2, 0][j]) ∧
    (∀ j, [1, 2, 0].length ≤ j → j < 5 → (RefCount.resize [1, 2, 0] 5).2[j]? = some 0)) :=
  ⟨by decide, resize_post [1, 2, 0] 5 (by decide)⟩

/-- C9. For every table and every `start <= size()`, `only_zeros_remaining(start)`
returns, and it returns `true` exactly when every slot at an index `j` with
`start <= j < size()` is zero; for `start = size()` it returns `true`. The
function is `const`: its only result is the boolean. -/
theorem only_zeros_remaining_correct (t : RefCount) (start : Nat) (h : start ≤ t.length) :
    (∃ b, RefCount.only_zeros_remaining t start = .ok b ∧
      (b = true ↔ ∀ j, ∀ hj : j < t.length, start ≤ j → t[j] = 0)) ∧
    RefCount.only_zeros_remaining t t.length = .ok true := by
  refine ⟨⟨zeros_loop (t.drop start), only_zeros_remaining_eq t start h, ?_⟩, ?_⟩
  · rw [zeros_loop_iff, drop_all_zero_iff]
  · rw [only_zeros_remaining_eq t t.length (Nat.le_refl _)]
    simp [zeros_loop]

theorem only_zeros_remaining_correct_witness :
    (2 ≤ [0, 7, 0, 0].length) ∧
    ((∃ b, RefCount.only_zeros_remaining [0, 7, 0, 0] 2 = .ok b ∧
      (b = true ↔ ∀ j, ∀ hj : j < [0, 7, 0, 0].length, 2 ≤ j → [0, 7, 0, 0][j] = 0)) ∧
    RefCount.only_zeros_remaining [0, 7, 0, 0] [0, 7, 0, 0].length = .ok true) :=
  ⟨by decide, only_zeros_remaining_correct [0, 7, 0, 0] 2 (by decide)⟩

/-- C10. For every table and every non-null identifier `id`: let `A` be the
handle that `ref_add(id)` returns. `A` is non-null. Moving `A` into `B` gives
`B` the identifier and leaves `A` null; the move takes no table, so no slot
changes. Then `ref_release(B)` returns, leaves `B` null and applies one
decrement to the slot of `id` and to no other slot: the slot goes down by
exactly one (from a count `>= 1`). A following `ref_release(A)` returns and
leaves the table as it is. -/
theorem move_preserves_count (w : Nat) (t : IdRefCount) (id : Nat)
    (hw : id < 2 ^ w) (hnn : id ≠ id_null w) :
    ∃ t1 a, IdRefCount.ref_add w t id = (.ok a, t1) ∧ Storage_t.has_value w a = true ∧
      (Storage_t.move w a).2 = ⟨id⟩ ∧
      Storage_t.has_value w (Storage_t.move w a).1 = false ∧
      ∃ t2 b, IdRefCount.ref_release w t1 (Storage_t.move w a).2 = (.ok (), t2, b) ∧
        Storage_t.has_value w b = false ∧
        t2 = t1.set id ((slot t1 id + COUNT_T_card - 1) % COUNT_T_card) ∧
        (1 ≤ slot t1 id → slot t2 id + 1 = slot t1 id) ∧
        (slot t id < COUNT_T_card - 1 → slot t1 id = slot t id + 1 ∧ slot t2 id = slot t id) ∧
        IdRefCount.ref_release w t2 (Storage_t.move w a).1 =
          (.ok (), t2, (Storage_t.move w a).1) := by
  obtain ⟨t1, hadd, hlen, -, hslot, -⟩ := ref_add_slot w t id (succ_representable w id hw hnn)
  have hv : Storage_t.has_value w ⟨id⟩ = true := by simpa [has_value_iff] using hnn
  have hnull : Storage_t.has_value w ⟨id_null w⟩ = false := by simp [Storage_t.has_value]
  have hbound : slot t1 id < COUNT_T_card := by
    rw [hslot]; exact Nat.mod_lt _ (by decide)
  have hdec : 1 ≤ slot t1 id →
      slot (t1.set id ((slot t1 id + COUNT_T_card - 1) % COUNT_T_card)) id + 1 = slot t1 id := by
    intro h1
    rw [slot_set_self _ _ _ hlen, count_decrement _ h1 hbound]
    omega
  refine ⟨t1, ⟨id⟩, hadd, hv, rfl, hnull, _, ⟨id_null w⟩, ?_, hnull, rfl, hdec, ?_, ?_⟩
  · show IdRefCount.ref_release w t1 ⟨id⟩ = _
    rw [ref_release_eq w t1 ⟨id⟩ hv hlen, slot_eq_getElem t1 id hlen]
  · intro hlt
    have h1 : slot t1 id = slot t id + 1 := by
      rw [hslot]; exact Nat.mod_eq_of_lt (by simp only [COUNT_T_card] at *; omega)
    have := hdec (by omega)
    exact ⟨h1, by omega⟩
  · exact ref_release_null w _ _ hnull

theorem move_preserves_count_witness :
    (7 < 2 ^ 32 ∧ 7 ≠ id_null 32) ∧
    ∃ t1 a, IdRefCount.ref_add 32 [0, 1] 7 = (.ok a, t1) ∧ Storage_t.has_value 32 a = true ∧
      (Storage_t.move 32 a).2 = ⟨7⟩ ∧
      Storage_t.has_value 32 (Storage_t.move 32 a).1 = false ∧
      ∃ t2 b, IdRefCount.ref_release 32 t1 (Storage_t.move 32 a).2 = (.ok (), t2, b) ∧
        Storage_t.has_value 32 b = false ∧
        t2 = t1.set 7 ((slot t1 7 + COUNT_T_card - 1) % COUNT_T_card) ∧
        (1 ≤ slot t1 7 → slot t2 7 + 1 = slot t1 7) ∧
        (slot [0, 1] 7 < COUNT_T_card - 1 →
          slot t1 7 = slot [0, 1] 7 + 1 ∧ slot t2 7 = slot [0, 1] 7) ∧
        IdRefCount.ref_release 32 t2 (Storage_t.move 32 a).1 =
          (.ok (), t2, (Storage_t.move 32 a).1) :=
  ⟨by decide, move_preserves_count 32 [0, 1] 7 (by decide) (by decide)⟩

/-- C11. Growth policy. For every sequence of `ref_add` (on real identifiers)
and `ref_release` calls applied to an initially empty table, every initial
part of the sequence runs without fault; after it the table length is `0` if
no identifier was acquired yet and otherwise the largest acquired identifier
value plus one; and the length after one more call is never smaller. -/
theorem growth_policy (w : Nat) (cs : List Call) (hreal : ∀ c ∈ cs, Call.real w c = true) :
    ∀ p q, cs = p ++ q →
      ∃ s, Client.run w ⟨RefCount.empty, []⟩ p = .ok s ∧
        s.table.length = policy_size p ∧
        ∀ c r, q = c :: r →
          ∃ s1, Client.run w ⟨RefCount.empty, []⟩ (p ++ [c]) = .ok s1 ∧
            s.table.length ≤ s1.table.length := by
  intro p q hpq
  have hin : Client.in_range w ⟨RefCount.empty, []⟩ :=
    fun h hmem => absurd hmem (List.not_mem_nil h)
  have hp : ∀ c ∈ p, Call.real w c = true :=
    fun c hc => hreal c (by rw [hpq]; exact List.mem_append_left q hc)
  obtain ⟨s, hrun, -, hlen, -⟩ := run_in_range w p ⟨RefCount.empty, []⟩ hin hp
  have hlen0 : s.table.length = policy_size p := by
    rw [hlen, policy_size_eq]
    simp [RefCount.empty]
  refine ⟨s, hrun, hlen0, ?_⟩
  intro c r hq
  have hpc : ∀ c1 ∈ p ++ [c], Call.real w c1 = true := by
    intro c1 hc1
    apply hreal c1
    rw [hpq, hq]
    rcases List.mem_append.mp hc1 with h1 | h1
    · exact List.mem_append_left _ h1
    · rw [List.mem_singleton.mp h1]
      exact List.mem_append_right _ (List.mem_cons_self c r)
  obtain ⟨s1, hrun1, -, hlen1, -⟩ := run_in_range w (p ++ [c]) ⟨RefCount.empty, []⟩ hin hpc
  refine ⟨s1, hrun1, ?_⟩
  have h1 : s1.table.length = policy_size (p ++ [c]) := by
    rw [hlen1, policy_size_eq]
    simp [RefCount.empty]
  rw [hlen0, h1]
  exact policy_size_mono p [c]

theorem growth_policy_witness :
    (∀ c ∈ [Call.add 3, .release 0, .add 1, .add 6], Call.real 32 c = true) ∧
    ∀ p q, [Call.add 3, .release 0, .add 1, .add 6] = p ++ q →
      ∃ s, Client.run 32 ⟨RefCount.empty, []⟩ p = .ok s ∧
        s.table.length = policy_size p ∧
        ∀ c r, q = c :: r →
          ∃ s1, Client.run 32 ⟨RefCount.empty, []⟩ (p ++ [c]) = .ok s1 ∧
            s.table.length ≤ s1.table.length :=
  ⟨by decide, growth_policy 32 [.add 3, .release 0, .add 1, .add 6] (by decide)⟩

/-- C12. Balanced use reaches quiescence. Start from a table whose slots are
all zero, with no handle held. For every sequence of `ref_add` (on real
identifiers) and `ref_release` calls in which every handle returned by
`ref_add` is released exactly once, later on, and which keeps the number of
live handles on each identifier below `2 ^ 16`, the sequence runs without
fault and in the final table every slot is zero: `only_zeros_remaining(0)`
returns true and the check of the destructor passes. Scenario: on the empty
table, `ref_add(5)`, `ref_add(5)`, release, release leave slot 5 at 1, 2, 1, 0
with a size of 6. -/
theorem balanced_quiescence (w : Nat) (t : IdRefCount) (cs : List Call)
    (hz : ∀ c ∈ t, c = 0) (hb : balanced_calls 0 [] cs = true)
    (hp : proper_calls w [] cs = true) :
    (∃ s, Client.run w ⟨t, []⟩ cs = .ok s ∧ (∀ c ∈ s.table, c = 0) ∧
      RefCount.only_zeros_remaining s.table 0 = .ok true ∧
      RefCount.destructor s.table = .ok ()) ∧
    [[Call.add 5], [.add 5, .add 5], [.add 5, .add 5, .release 0],
        [.add 5, .add 5, .release 0, .release 1]].map
      (fun p => (Client.run 32 ⟨RefCount.empty, []⟩ p).map
        (fun s => (slot s.table 5, s.table.length))) =
      [.ok (1, 6), .ok (2, 6), .ok (1, 6), .ok (0, 6)] := by
  refine ⟨?_, by decide⟩
  obtain ⟨s, hrun, hc, hh⟩ := run_counted w cs ⟨t, []⟩ (counted_start w t hz) hp
  have hnull : ∀ h ∈ s.handles, Storage_t.has_value w h = false := by
    rw [hh]
    exact balanced_all_null w cs [] 0 [] rfl
      (fun k hk => absurd hk (List.not_mem_nil k)) hb
  have hzero : ∀ c ∈ s.table, c = 0 := by
    intro c hmem
    obtain ⟨j, hj, rfl⟩ := List.mem_iff_getElem.mp hmem
    rw [← slot_eq_getElem s.table j hj, hc.slots j]
    exact live_count_zero_of_null w s.handles hnull j
  have hloop : zeros_loop s.table = true := (zeros_loop_iff s.table).mpr hzero
  refine ⟨s, hrun, hzero, ?_, ?_⟩
  · rw [only_zeros_remaining_eq s.table 0 (Nat.zero_le _), List.drop_zero, hloop]
  · rw [destructor_eq, hloop]; rfl

theorem balanced_quiescence_witness :
    ((∀ c ∈ [0, 0], c = 0) ∧
      balanced_calls 0 [] [.add 5, .add 2, .release 1, .add 5, .release 0, .release 2] = true ∧
      proper_calls 32 [] [.add 5, .add 2, .release 1, .add 5, .release 0, .release 2] = true) ∧
    ∃ s, Client.run 32 ⟨[0, 0], []⟩
        [.add 5, .add 2, .release 1, .add 5, .release 0, .release 2] = .ok s ∧
      (∀ c ∈ s.table, c = 0) ∧
      RefCount.only_zeros_remaining s.table 0 = .ok true ∧
      RefCount.destructor s.table = .ok () :=
  ⟨by decide, (balanced_quiescence 32 [0, 0]
    [.add 5, .add 2, .release 1, .add 5, .release 0, .release 2]
    (by decide) (by decide) (by decide)).1⟩

/-- C13. The function `ref_add` makes no overflow check: for every table and
every identifier whose slot holds `c`, `ref_add` returns and leaves
`(c + 1) mod 2 ^ 16` in the slot, with the size and the other slots as they
were; a slot holding `2 ^ 16 - 1` becomes `0` without any contract failure. -/
theorem ref_add_wraps (w : Nat) (t : IdRefCount) (id c : Nat) (hc : t[id]? = some c) :
    IdRefCount.ref_add w t id = (.ok ⟨id⟩, t.set id ((c + 1) % COUNT_T_card)) ∧
    (t.set id ((c + 1) % COUNT_T_card))[id]? = some ((c + 1) % COUNT_T_card) ∧
    (c = COUNT_T_card - 1 → (t.set id ((c + 1) % COUNT_T_card))[id]? = some 0) := by
  have hi : id < t.length := by
    by_contra hcon
    rw [List.getElem?_eq_none (by omega)] at hc
    exact absurd hc (by simp)
  have hget : t[id] = c := by
    rw [List.getElem?_eq_getElem hi] at hc
    exact Option.some.inj hc
  refine ⟨by rw [ref_add_in_range w t id hi, hget], List.getElem?_set_self hi, ?_⟩
  intro hmax
  rw [List.getElem?_set_self hi, hmax]
  rfl

theorem ref_add_wraps_witness :
    [7, 65535][1]? = some 65535 ∧
    (IdRefCount.ref_add 32 [7, 65535] 1 =
      (.ok ⟨1⟩, [7, 65535].set 1 ((65535 + 1) % COUNT_T_card)) ∧
    ([7, 65535].set 1 ((65535 + 1) % COUNT_T_card))[1]? = some ((65535 + 1) % COUNT_T_card) ∧
    (65535 = COUNT_T_card - 1 →
      ([7, 65535].set 1 ((65535 + 1) % COUNT_T_card))[1]? = some 0)) :=
  ⟨by decide, ref_add_wraps 32 [7, 65535] 1 65535 (by decide)⟩

/-- C14. Live-handle invariant. In every state reached from the empty table
by `ref_add` calls (on real identifiers) and `ref_release` calls on the
caller's handle variables, with fewer than `2 ^ 16` live handles on each
identifier: every slot `i` equals the number of live handles wrapping `i`,
and every live handle wraps an identifier `< size()`. Consequently
`ref_release` on a live handle indexes inside the table, finds a count
`>= 1`, returns and lowers that count by one. -/
theorem live_handle_invariant (w : Nat) (cs : List Call)
    (hp : proper_calls w [] cs = true) :
    ∃ s, Client.run w ⟨RefCount.empty, []⟩ cs = .ok s ∧
      (∀ i, slot s.table i = live_count w s.handles i) ∧
      ∀ h ∈ s.handles, Storage_t.has_value w h = true →
        h.m_id < s.table.length ∧ 1 ≤ slot s.table h.m_id ∧
        ∃ t1, IdRefCount.ref_release w s.table h = (.ok (), t1, Storage_t.null w) ∧
          slot t1 h.m_id + 1 = slot s.table h.m_id := by
  have hstart : Client.counted w ⟨RefCount.empty, []⟩ :=
    counted_start w RefCount.empty (fun c hc => absurd hc (List.not_mem_nil c))
  obtain ⟨s, hrun, hc, -⟩ := run_counted w cs ⟨RefCount.empty, []⟩ hstart hp
  refine ⟨s, hrun, hc.slots, ?_⟩
  intro h hmem hv
  have hlt := hc.range h hmem hv
  have hpos : 1 ≤ slot s.table h.m_id := by
    rw [hc.slots]; exact live_count_pos w s.handles h hmem hv
  have hfit : slot s.table h.m_id < COUNT_T_card := by
    rw [hc.slots]; exact hc.fits _
  refine ⟨hlt, hpos, _, ref_release_eq w s.table h hv hlt, ?_⟩
  rw [slot_set_self _ _ _ hlt, ← slot_eq_getElem s.table _ hlt,
    count_decrement _ hpos hfit]
  omega

theorem live_handle_invariant_witness :
    proper_calls 32 [] [.add 2, .add 0, .add 2, .release 1] = true ∧
    ∃ s, Client.run 32 ⟨RefCount.empty, []⟩ [.add 2, .add 0, .add 2, .release 1] = .ok s ∧
      (∀ i, slot s.table i = live_count 32 s.handles i) ∧
      ∀ h ∈ s.handles, Storage_t.has_value 32 h = true →
        h.m_id < s.table.length ∧ 1 ≤ slot s.table h.m_id ∧
        ∃ t1, IdRefCount.ref_release 32 s.table h = (.ok (), t1, Storage_t.null 32) ∧
          slot t1 h.m_id + 1 = slot s.table h.m_id :=
  ⟨by decide, live_handle_invariant 32 [.add 2, .add 0, .add 2, .release 1] (by decide)⟩

/-- C15. For every table and every identifier with integer value `i` whose
successor `i + 1` does not overflow the identifier's integer type: when
`size() <= i`, the call `resize(i + 1)` made by `ref_add` is a pure growth
whose contract check passes, leaving `i + 1` slots; in every case `ref_add`
returns, and the slot it increments is at an index `i` below the size the
table has at that point. -/
theorem ref_add_in_bounds (w : Nat) (t : IdRefCount) (id : Nat) (hrep : id + 1 < 2 ^ w) :
    (t.length ≤ id →
      t.length < (id + 1) % 2 ^ sum_bits w ∧
      RefCount.resize t ((id + 1) % 2 ^ sum_bits w) =
        (.ok (), t ++ List.replicate (id + 1 - t.length) 0)) ∧
    ∃ tg, ∃ hi : id < tg.length,
      tg = (if t.length ≤ id then (RefCount.resize t ((id + 1) % 2 ^ sum_bits w)).2 else t) ∧
      IdRefCount.ref_add w t id = (.ok ⟨id⟩, tg.set id ((tg[id] + 1) % COUNT_T_card)) := by
  have hsb : id + 1 < 2 ^ sum_bits w := lt_of_lt_of_le hrep (sum_bits_le w)
  have hmod : (id + 1) % 2 ^ sum_bits w = id + 1 := Nat.mod_eq_of_lt hsb
  have hres : t.length ≤ id → RefCount.resize t (id + 1) =
      (.ok (), t ++ List.replicate (id + 1 - t.length) 0) := by
    intro hlen
    have hnot : ¬ (id + 1 < t.length) := by omega
    rw [resize_eq, vector_resize_grow t (id + 1) (by omega)]
    simp [hnot]
  refine ⟨fun hlen => ⟨by omega, by rw [hmod]; exact hres hlen⟩, ?_⟩
  by_cases hlen : t.length ≤ id
  · have hb : id < (t ++ List.replicate (id + 1 - t.length) 0).length := by simp; omega
    refine ⟨t ++ List.replicate (id + 1 - t.length) 0, hb, ?_, ?_⟩
    · simp only [hlen, if_true, hmod, hres hlen]
    · rw [ref_add_eq w t id hsb]
      have hget : (t ++ List.replicate (id + 1 - t.length) 0)[id] = t.getD id 0 := by
        rw [List.getElem_append_right hlen]
        simp [List.getD_eq_getElem?_getD, List.getElem?_eq_none hlen]
      rw [hget]
  · have hlt : id < t.length := by omega
    refine ⟨t, hlt, by simp only [hlen, if_false], ref_add_in_range w t id hlt⟩

theorem ref_add_in_bounds_witness :
    (4 + 1 < 2 ^ 32) ∧
    (([9].length ≤ 4 →
      [9].length < (4 + 1) % 2 ^ sum_bits 32 ∧
      RefCount.resize [9] ((4 + 1) % 2 ^ sum_bits 32) =
        (.ok (), [9] ++ List.replicate (4 + 1 - [9].length) 0)) ∧
    ∃ tg, ∃ hi : 4 < tg.length,
      tg = (if [9].length ≤ 4 then (RefCount.resize [9] ((4 + 1) % 2 ^ sum_bits 32)).2
        else [9]) ∧
      IdRefCount.ref_add 32 [9] 4 = (.ok ⟨4⟩, tg.set 4 ((tg[4] + 1) % COUNT_T_card))) :=
  ⟨by decide, ref_add_in_bounds 32 [9] 4 (by decide)⟩

/-- C16. For every table (of 16-bit counters) and every non-null identifier
`id` with integer value `i`: `ref_add(id)` returns a handle, and
`ref_release` on that handle returns with the handle null and with the table
`t` itself when `i < size()`, and otherwise `t` extended with zero slots up to
length `i + 1`. In both cases every slot of `t` keeps its value, also a slot
`i` that held the largest count. -/
theorem acquire_release_round_trip (w : Nat) (t : IdRefCount) (id : Nat)
    (hw : id < 2 ^ w) (hnn : id ≠ id_null w) (hty : ∀ c ∈ t, c < COUNT_T_card) :
    ∃ t1 h, IdRefCount.ref_add w t id = (.ok h, t1) ∧
      IdRefCount.ref_release w t1 h =
        (.ok (), t ++ List.replicate (id + 1 - t.length) 0, Storage_t.null w) ∧
      (id < t.length → t ++ List.replicate (id + 1 - t.length) 0 = t) ∧
      (t ++ List.replicate (id + 1 - t.length) 0).length = max t.length (id + 1) ∧
      (∀ j, ∀ hj : j < t.length,
        (t ++ List.replicate (id + 1 - t.length) 0)[j]? = some t[j]) ∧
      (∀ j, t.length ≤ j → j ≤ id →
        (t ++ List.replicate (id + 1 - t.length) 0)[j]? = some 0) := by
  have hsb := succ_representable w id hw hnn
  have hv : Storage_t.has_value w ⟨id⟩ = true := by simpa [has_value_iff] using hnn
  have hb : id < (t ++ List.replicate (id + 1 - t.length) 0).length := by simp; omega
  have hslot : slot t id < COUNT_T_card := by
    by_cases hlt : id < t.length
    · rw [slot_eq_getElem t id hlt]; exact hty _ (List.getElem_mem hlt)
    · simp [slot, List.getD_eq_getElem?_getD, List.getElem?_eq_none (Nat.le_of_not_lt hlt)]
  have hpadget : (t ++ List.replicate (id + 1 - t.length) 0)[id] = slot t id := by
    rw [← slot_eq_getElem _ id hb, slot_pad]
  refine ⟨_, ⟨id⟩, ref_add_eq w t id hsb, ?_, ?_, by simp; omega, ?_, ?_⟩
  · have hb2 : id < ((t ++ List.replicate (id + 1 - t.length) 0).set id
        ((t.getD id 0 + 1) % COUNT_T_card)).length := by simpa using hb
    rw [ref_release_eq w _ ⟨id⟩ hv hb2]
    simp only [List.getElem_set_self, List.set_set]
    have : ((t.getD id 0 + 1) % COUNT_T_card + COUNT_T_card - 1) % COUNT_T_card = slot t id :=
      count_round_trip (slot t id) hslot
    rw [this, ← hpadget, set_same _ id hb]
    rfl
  · intro hlt
    have : id + 1 - t.length = 0 := by omega
    simp [this]
  · intro j hj
    rw [List.getElem?_append_left hj, List.getElem?_eq_getElem hj]
  · intro j hlo hhi
    rw [List.getElem?_append_right hlo, List.getElem?_eq_getElem (by simp; omega),
      List.getElem_replicate]

theorem acquire_release_round_trip_witness :
    (1 < 2 ^ 32 ∧ 1 ≠ id_null 32 ∧ ∀ c ∈ [3, 65535], c < COUNT_T_card) ∧
    ∃ t1 h, IdRefCount.ref_add 32 [3, 65535] 1 = (.ok h, t1) ∧
      IdRefCount.ref_release 32 t1 h =
        (.ok (), [3, 65535] ++ List.replicate (1 + 1 - [3, 65535].length) 0,
          Storage_t.null 32) ∧
      (1 < [3, 65535].length →
        [3, 65535] ++ List.replicate (1 + 1 - [3, 65535].length) 0 = [3, 65535]) ∧
      ([3, 65535] ++ List.replicate (1 + 1 - [3, 65535].length) 0).length =
        max [3, 65535].length (1 + 1) ∧
      (∀ j, ∀ hj : j < [3, 65535].length,
        ([3, 65535] ++ List.replicate (1 + 1 - [3, 65535].length) 0)[j]? =
          some [3, 65535][j]) ∧
      (∀ j, [3, 65535].length ≤ j → j ≤ 1 →
        ([3, 65535] ++ List.replicate (1 + 1 - [3, 65535].length) 0)[j]? = some 0) :=
  ⟨by decide, acquire_release_round_trip 32 [3, 65535] 1 (by decide) (by decide) (by decide)⟩

/-- C17. For every table and every identifier with integer value `i`:
whenever `ref_add` returns, every slot at an index `j != i` below the former
size holds its former value; whenever its contract check fails, the table is
as it was; and it does return when `i < size()` or `i + 1` is representable
(so for every non-null identifier). For every non-null handle with integer
value `i < size()`, `ref_release` returns and leaves the size and every slot
at an index `j != i` as they were. -/
theorem acquire_release_frame (w : Nat) (t : IdRefCount) (id : Nat) :
    (∀ t1 h, IdRefCount.ref_add w t id = (.ok h, t1) →
      ∀ j, j ≠ id → ∀ hj : j < t.length, t1[j]? = some t[j]) ∧
    (∀ t1, IdRefCount.ref_add w t id = (.error .assertion, t1) → t1 = t) ∧
    ((id < t.length ∨ id + 1 < 2 ^ sum_bits w) →
      ∃ t1, IdRefCount.ref_add w t id = (.ok ⟨id⟩, t1)) ∧
    (∀ h : Storage_t, h.m_id = id → Storage_t.has_value w h = true → id < t.length →
      ∃ t1, IdRefCount.ref_release w t h = (.ok (), t1, Storage_t.null w) ∧
        t1.length = t.length ∧ ∀ j, j ≠ id → t1[j]? = t[j]?) := by
  refine ⟨?_, fun t1 hr => ref_add_assert_form w t t1 id hr, ?_, ?_⟩
  · intro t1 h hr j hj hlt
    obtain ⟨-, rfl⟩ := ref_add_ok_form w t t1 id h hr
    rw [List.getElem?_set_ne (Ne.symm hj), List.getElem?_append_left hlt,
      List.getElem?_eq_getElem hlt]
  · rintro (hlt | hrep)
    · exact ⟨_, ref_add_in_range w t id hlt⟩
    · exact ⟨_, ref_add_eq w t id hrep⟩
  · intro h hid hv hlt
    subst hid
    refine ⟨_, ref_release_eq w t h hv hlt, by simp, ?_⟩
    intro j hj
    rw [List.getElem?_set_ne (Ne.symm hj)]

theorem acquire_release_frame_witness :
    (∀ j, j ≠ 1 → ∀ hj : j < [4, 5, 6].length,
      ([4, 6, 6] : IdRefCount)[j]? = some [4, 5, 6][j]) ∧
    (∃ t1, IdRefCount.ref_add 32 [4, 5, 6] 1 = (.ok ⟨1⟩, t1)) ∧
    (∃ t1, IdRefCount.ref_release 32 [4, 5, 6] ⟨1⟩ = (.ok (), t1, Storage_t.null 32) ∧
        t1.length = [4, 5, 6].length ∧ ∀ j, j ≠ 1 → t1[j]? = [4, 5, 6][j]?) :=
  ⟨(acquire_release_frame 32 [4, 5, 6] 1).1 [4, 6, 6] ⟨1⟩ (by decide),
   (acquire_release_frame 32 [4, 5, 6] 1).2.2.1 (Or.inl (by decide)),
   (acquire_release_frame 32 [4, 5, 6] 1).2.2.2 ⟨1⟩ rfl (by decide) (by decide)⟩

/-- C18. For every capacity `n`, `RefCount(n)` is a table with `size() = n`
in which every slot is zero: `only_zeros_remaining(k)` returns true for every
`k <= n`, a `resize` to any length passes its check, and so does an immediate
destruction. The default constructor gives `size() = 0`. -/
theorem presized_construction (n : Nat) :
    (RefCount.mk n).length = n ∧
    (∀ j, ∀ hj : j < (RefCount.mk n).length, (RefCount.mk n)[j] = 0) ∧
    (∀ k, k ≤ n → RefCount.only_zeros_remaining (RefCount.mk n) k = .ok true) ∧
    (∀ m, (RefCount.resize (RefCount.mk n) m).1 = .ok () ∧
      (RefCount.resize (RefCount.mk n) m).2 = RefCount.mk m) ∧
    RefCount.destructor (RefCount.mk n) = .ok () ∧
    RefCount.empty.length = 0 := by
  have hdrop : ∀ k, zeros_loop ((RefCount.mk n).drop k) = true := by
    intro k
    simp only [RefCount.mk, List.drop_replicate]
    exact zeros_loop_replicate _
  refine ⟨by simp [RefCount.mk], ?_, ?_, ?_, ?_, rfl⟩
  · intro j hj
    simp [RefCount.mk]
  · intro k hk
    rw [only_zeros_remaining_eq _ k (by simpa [RefCount.mk] using hk), hdrop k]
  · intro m
    rw [resize_eq]
    simp only [hdrop m, Bool.true_eq_false, and_false, if_false, true_and]
    simp only [vector_resize, RefCount.mk, List.take_replicate, List.length_replicate,
      List.append_replicate_replicate]
    congr 1
    omega
  · rw [destructor_eq]
    have := hdrop 0
    rw [List.drop_zero] at this
    simp [this]

end lgrn
